import Mathlib

/-
Verification of the natural-language design of micro_ros_platformio's
`microros_utils/library_builder.py` against a shallow embedding of the
code.  Each section embeds the part of the source a claim depends on
(pure data is translated directly; filesystem/process effects become
explicit state passing on small state types), then proves or refutes
the claim.
-/

set_option maxHeartbeats 1000000

namespace LibraryBuilder

/-- Executable model of Python `str.endswith(p)` / shell `*suffix` matching:
`p` is a suffix of `s`.  Stated on the character lists so that the kernel can
evaluate it on concrete strings. -/
def strEndsWith (s p : String) : Bool :=
  s.data.drop (s.data.length - p.data.length) == p.data

/-- `strEndsWith s p` holds exactly when some prefix `q` completes `s`. -/
theorem strEndsWith_iff (s p : String) :
    strEndsWith s p = true ↔ ∃ q, s.data = q ++ p.data := by
  unfold strEndsWith
  rw [beq_iff_eq]
  constructor
  · intro h
    refine ⟨s.data.take (s.data.length - p.data.length), ?_⟩
    conv_lhs => rw [← List.take_append_drop (s.data.length - p.data.length) s.data]
    rw [h]
  · rintro ⟨q, hq⟩
    rw [hq, List.length_append, Nat.add_sub_cancel, List.drop_left]

/-- Appending on the left preserves a suffix. -/
theorem strEndsWith_append (s t p : String) (h : strEndsWith t p = true) :
    strEndsWith (s ++ t) p = true := by
  rw [strEndsWith_iff] at h ⊢
  obtain ⟨q, hq⟩ := h
  exact ⟨s.data ++ q, by rw [String.data_append, hq, List.append_assoc]⟩

/-- A name ending in `".obj"` also ends in `"obj"`. -/
theorem strEndsWith_dotobj (s : String) (h : strEndsWith s ".obj" = true) :
    strEndsWith s "obj" = true := by
  rw [strEndsWith_iff] at h ⊢
  obtain ⟨q, hq⟩ := h
  exact ⟨q ++ ['.'], by rw [hq, List.append_assoc]; rfl⟩

/-- Modelled from the spec: `Package` lives in `microros_utils/repositories.py`
(not part of the sources under verification).  Per the design §3, a package is
discovered with its name, starts not ignored, and is only ever marked ignored
(never deleted, never un-ignored). -/
structure Package where
  name : String
  ignored : Bool
deriving DecidableEq, Repr

/-- Modelled from the spec: `Package.ignore()` marks the package as ignored. -/
def Package.ignore (p : Package) : Package :=
  { p with ignored := true }

/-- The two package lists held by `Build` (`self.dev_packages`,
`self.mcu_packages`, `library_builder.py` lines 55-56). -/
structure BuildState where
  dev_packages : List Package
  mcu_packages : List Package
deriving DecidableEq, Repr

/-- Embedding of `Build.ignore_package` (lines 82-85): iterate over
`self.mcu_packages` and call `.ignore()` on every package whose name equals
`name`. -/
def ignore_package (b : BuildState) (name : String) : BuildState :=
  { b with
    mcu_packages :=
      b.mcu_packages.map (fun p => if p.name = name then p.ignore else p) }

/-- Embedding of the auto-ignore rule applied to each discovered mcu package in
`Build.download_mcu_environment` (line 162): ignore when the name is in the
profile's ignore list (`Sources.ignore_packages[self.distro]`, a static list
living in `repositories.py`, modelled as a parameter) or ends with `"_cpp"`. -/
def autoIgnore (ignoreList : List String) (p : Package) : Package :=
  if ignoreList.contains p.name || strEndsWith p.name "_cpp" then p.ignore else p

/-- Embedding of the discovery loop of `Build.download_mcu_environment`
(lines 158-165) restricted to its effect on package ignore state: each package
of each repository is discovered (not ignored) and the auto-ignore rule is
applied once. -/
def download_mcu_environment (ignoreList : List String)
    (discoveredNames : List String) : List Package :=
  discoveredNames.map (fun n => autoIgnore ignoreList (Package.mk n false))

/-- The auto-ignore rule preserves the name and sets the ignored flag exactly
when the ignore-list or the `"_cpp"` suffix rule applies. -/
theorem autoIgnore_spec (ignoreList : List String) (n : String) :
    (autoIgnore ignoreList (Package.mk n false)).name = n ∧
      ((autoIgnore ignoreList (Package.mk n false)).ignored = true ↔
        (n ∈ ignoreList ∨ strEndsWith n "_cpp" = true)) := by
  unfold autoIgnore
  by_cases h : (ignoreList.contains n || strEndsWith n "_cpp") = true
  · rw [if_pos h]
    simp only [Bool.or_eq_true, List.elem_iff] at h
    exact ⟨rfl, by simp [Package.ignore, h]⟩
  · rw [if_neg h]
    simp only [Bool.or_eq_true, List.elem_iff] at h
    push_neg at h
    refine ⟨rfl, ?_⟩
    constructor
    · intro hfalse; exact absurd hfalse (by simp)
    · intro hor
      cases hor with
      | inl h1 => exact absurd h1 h.1
      | inr h2 => exact absurd h2 h.2

/-- The observable stages of `Build.run` (lines 70-80), as a state record:
which phases ran and whether the final artifact file exists. -/
structure PipelineState where
  envChecked : Bool
  devDownloaded : Bool
  devBuilt : Bool
  mcuDownloaded : Bool
  mcuBuilt : Bool
  packaged : Bool
  libraryPresent : Bool
deriving DecidableEq, Repr

/-- Embedding of `Build.run` (lines 70-80): if the library file already exists
the method returns at once; otherwise every phase runs (each phase marks its
flag; packaging creates the library file). -/
def run (s : PipelineState) : PipelineState :=
  if s.libraryPresent then s
  else
    { envChecked := true, devDownloaded := true, devBuilt := true,
      mcuDownloaded := true, mcuBuilt := true, packaged := true,
      libraryPresent := true }

/-- Claim C5: at discovery time a target-stage package is marked ignored if and
only if its name is in the profile's default ignore-list or its name ends with
the fixed suffix `"_cpp"`; in particular a package named `foo_cpp` is ignored
even when absent from the explicit ignore-list. -/
theorem c5_suffix_auto_ignore (ignoreList : List String)
    (discoveredNames : List String) (p : Package)
    (hp : p ∈ download_mcu_environment ignoreList discoveredNames) :
    (p.ignored = true ↔
        (p.name ∈ ignoreList ∨ strEndsWith p.name "_cpp" = true)) ∧
      (("foo_cpp" ∈ discoveredNames ∧ "foo_cpp" ∉ ignoreList) →
        Package.mk "foo_cpp" true ∈
          download_mcu_environment ignoreList discoveredNames) := by
  constructor
  · simp only [download_mcu_environment, List.mem_map] at hp
    obtain ⟨n, _, rfl⟩ := hp
    have h := autoIgnore_spec ignoreList n
    rw [h.1]
    exact h.2
  · rintro ⟨hmem, _⟩
    simp only [download_mcu_environment, List.mem_map]
    refine ⟨"foo_cpp", hmem, ?_⟩
    have hend : strEndsWith "foo_cpp" "_cpp" = true := by decide
    unfold autoIgnore
    simp [hend, Package.ignore]

/-- Witness for C5: discovering `foo_cpp` with an ignore-list that does not
contain it still yields an ignored package. -/
theorem c5_suffix_auto_ignore_witness :
    (Package.mk "foo_cpp" true ∈ download_mcu_environment ["rcl"] ["foo_cpp"]) ∧
      (Package.mk "foo_cpp" true).ignored = true := by
  refine ⟨?_, rfl⟩
  have h := c5_suffix_auto_ignore ["rcl"] ["foo_cpp"] (Package.mk "foo_cpp" true)
    (by decide)
  exact h.2 ⟨by decide, by decide⟩

/-- Claim C6: when the final artifact already exists, `run` returns immediately
and the whole pipeline state is unchanged: no phase runs, nothing is modified. -/
theorem c6_cached_run (s : PipelineState) (h : s.libraryPresent = true) :
    run s = s := by
  simp [run, h]

/-- Witness for C6: a concrete state with the library present is returned
untouched. -/
theorem c6_cached_run_witness :
    (PipelineState.mk false false false false false false true).libraryPresent
        = true ∧
      run (PipelineState.mk false false false false false false true) =
        PipelineState.mk false false false false false false true :=
  ⟨rfl, c6_cached_run _ rfl⟩

/-- Claim C8: `ignore_package` marks every registered mcu package whose name
equals the given name as ignored, and when no registered package matches, the
call is a no-op that changes no state (and, being total, raises no error). -/
theorem c8_ignore_package (b : BuildState) (name : String) :
    (∀ p ∈ (ignore_package b name).mcu_packages,
        p.name = name → p.ignored = true) ∧
      ((∀ p ∈ b.mcu_packages, p.name ≠ name) → ignore_package b name = b) := by
  constructor
  · intro p hp hname
    simp only [ignore_package, List.mem_map] at hp
    obtain ⟨q, hq, rfl⟩ := hp
    by_cases h : q.name = name
    · simp [h, Package.ignore]
    · rw [if_neg h] at hname ⊢
      exact absurd hname h
  · intro hnone
    have hmap : ∀ l : List Package, (∀ p ∈ l, p.name ≠ name) →
        l.map (fun p => if p.name = name then p.ignore else p) = l := by
      intro l
      induction l with
      | nil => intro _; rfl
      | cons q rest ih =>
        intro h
        simp only [List.map_cons]
        rw [if_neg (h q (List.mem_cons_self q rest)),
          ih (fun p hp => h p (List.mem_cons_of_mem q hp))]
    unfold ignore_package
    rw [hmap b.mcu_packages hnone]

/-- Witness for C8: ignoring a name with no matching registered package leaves
the state unchanged. -/
theorem c8_ignore_package_witness :
    (∀ p ∈ (BuildState.mk [] [Package.mk "rcl" false]).mcu_packages,
        p.name ≠ "absent") ∧
      ignore_package (BuildState.mk [] [Package.mk "rcl" false]) "absent" =
        BuildState.mk [] [Package.mk "rcl" false] := by
  refine ⟨by decide, ?_⟩
  exact (c8_ignore_package (BuildState.mk [] [Package.mk "rcl" false])
    "absent").2 (by decide)

/-- Claim C10: `ignore_package` only searches the mcu package list; the
dev-stage package list is returned unchanged, so a dev-stage package with a
matching name is never marked ignored by the call. -/
theorem c10_ignore_frame (b : BuildState) (name : String) :
    (ignore_package b name).dev_packages = b.dev_packages :=
  rfl

/-- A YAML value as reachable by `Build.get_repositories_from_yaml`
(lines 193-215): a scalar (null or string) or a mapping.  PyYAML mappings have
unique keys, so a mapping is an association list; sequences behave like
non-mapping scalars for every operation the code performs (indexing with a
string key raises `TypeError`) and are subsumed by the scalar cases. -/
inductive Yaml where
  | null : Yaml
  | str (s : String) : Yaml
  | map (entries : List (String × Yaml)) : Yaml

/-- The two Python exception classes the function distinguishes. -/
inductive PyErr where
  | keyError
  | typeError
deriving DecidableEq, Repr

/-- Python subscription `value[key]` with a string key: on a mapping it returns
the entry or raises `KeyError`; on any non-mapping value it raises
`TypeError`. -/
def Yaml.getItem : Yaml → String → Except PyErr Yaml
  | .map es, k =>
    match es.find? (fun e => e.1 == k) with
    | some e => .ok e.2
    | none => .error .keyError
  | _, _ => .error .typeError

/-- Python truthiness of a YAML value (`if repositories:` on line 200):
`None` and empty collections/strings are falsy. -/
def Yaml.truthy : Yaml → Bool
  | .null => false
  | .str s => !(s == "")
  | .map es => !es.isEmpty

/-- Outcome of `open(yaml_file)` plus `yaml.safe_load` (lines 196-197): the
file may be absent (`FileNotFoundError`), unparsable (`yaml.YAMLError`), or a
parsed document. -/
inductive ReadResult where
  | absent
  | parseError
  | doc (root : Yaml)

/-- The per-repository dict built by the loop body (lines 202-211): required
`type` and `url` copied over, optional `version` kept when present. -/
structure RepoEntry where
  rtype : Yaml
  url : Yaml
  version : Option Yaml

/-- Body of the inner `try` (lines 204-210): read `attributes['type']` and
`attributes['url']` (each may raise), then keep `attributes['version']` when
the key is present. -/
def resolveEntry (attributes : Yaml) : Except PyErr RepoEntry :=
  match attributes.getItem "type" with
  | .error e => .error e
  | .ok t =>
    match attributes.getItem "url" with
    | .error e => .error e
    | .ok u =>
      match attributes with
      | .map es =>
        .ok ⟨t, u, (es.find? (fun e => e.1 == "version")).map (fun e => e.2)⟩
      | _ => .ok ⟨t, u, none⟩

/-- The `for path in repositories` loop (lines 201-211): a `KeyError` from an
entry is caught by the inner handler and `continue`s; a `TypeError` escapes to
the outer handler (line 212), after which `finally: return repos` (line 215)
yields the entries accumulated so far. -/
def repositoriesLoop :
    List (String × Yaml) → List (String × RepoEntry) → List (String × RepoEntry)
  | [], repos => repos
  | (path, attributes) :: rest, repos =>
    match resolveEntry attributes with
    | .ok r => repositoriesLoop rest (repos ++ [(path, r)])
    | .error .keyError => repositoriesLoop rest repos
    | .error .typeError => repos

/-- Embedding of `Build.get_repositories_from_yaml` (lines 193-215).  Every
exception escaping the `try` is discarded by the `return repos` in the
`finally` block, so the function always returns the mapping accumulated so
far (in particular the `FileNotFoundError` of an absent file is swallowed). -/
def get_repositories_from_yaml (input : ReadResult) :
    List (String × RepoEntry) :=
  match input with
  | .absent => []
  | .parseError => []
  | .doc root =>
    match root.getItem "repositories" with
    | .error _ => []
    | .ok repositories =>
      if repositories.truthy then
        match repositories with
        | .map es => repositoriesLoop es []
        | _ => []
      else []

/-- An entry whose mapping has no `url` key resolves to a `KeyError`
(whether or not `type` is present). -/
theorem resolveEntry_url_missing (es2 : List (String × Yaml))
    (hurl : es2.find? (fun e => e.1 == "url") = none) :
    resolveEntry (Yaml.map es2) = .error .keyError := by
  unfold resolveEntry Yaml.getItem
  cases h : es2.find? (fun e => e.1 == "type") with
  | none => simp [h]
  | some e => simp [h, hurl]

/-- Claim C3: loading the extra-packages manifest is total — an absent,
malformed, or `repositories`-less document (including a non-mapping root)
yields an empty mapping; an entry lacking the required `url` field is skipped
individually, so a manifest with three entries where the middle one lacks
`url` yields exactly the two resolved entries, with `version` kept when
present. -/
theorem c3_manifest_tolerance
    (es : List (String × Yaml)) (s : String)
    (p1 p2 p3 : String) (a1 a3 : Yaml) (r1 r3 : RepoEntry)
    (es2 : List (String × Yaml))
    (h1 : resolveEntry a1 = .ok r1)
    (h3 : resolveEntry a3 = .ok r3)
    (hmiss : es.find? (fun e => e.1 == "repositories") = none)
    (hurl : es2.find? (fun e => e.1 == "url") = none) :
    get_repositories_from_yaml .absent = [] ∧
      get_repositories_from_yaml .parseError = [] ∧
      get_repositories_from_yaml (.doc .null) = [] ∧
      get_repositories_from_yaml (.doc (.str s)) = [] ∧
      get_repositories_from_yaml (.doc (.map es)) = [] ∧
      get_repositories_from_yaml (.doc (.map [("repositories",
          .map [(p1, a1), (p2, .map es2), (p3, a3)])])) = [(p1, r1), (p3, r3)] := by
  refine ⟨rfl, rfl, rfl, rfl, ?_, ?_⟩
  · unfold get_repositories_from_yaml Yaml.getItem
    simp [hmiss]
  · unfold get_repositories_from_yaml Yaml.getItem
    simp [Yaml.truthy, repositoriesLoop, h1, h3, resolveEntry_url_missing es2 hurl]

/-- Witness for C3: a concrete three-entry manifest whose middle entry lacks
`url` yields exactly the two well-formed entries. -/
theorem c3_manifest_tolerance_witness :
    resolveEntry (.map [("type", .str "git"), ("url", .str "u1")]) =
        .ok ⟨.str "git", .str "u1", none⟩ ∧
      resolveEntry (.map [("type", .str "git"), ("url", .str "u3"),
          ("version", .str "v3")]) =
        .ok ⟨.str "git", .str "u3", some (.str "v3")⟩ ∧
      get_repositories_from_yaml (.doc (.map [("repositories", .map
          [("repo1", .map [("type", .str "git"), ("url", .str "u1")]),
           ("repo2", .map [("type", .str "git")]),
           ("repo3", .map [("type", .str "git"), ("url", .str "u3"),
             ("version", .str "v3")])])])) =
        [("repo1", ⟨.str "git", .str "u1", none⟩),
         ("repo3", ⟨.str "git", .str "u3", some (.str "v3")⟩)] := by
  refine ⟨rfl, rfl, ?_⟩
  exact (c3_manifest_tolerance [] "x" "repo1" "repo2" "repo3"
    (.map [("type", .str "git"), ("url", .str "u1")])
    (.map [("type", .str "git"), ("url", .str "u3"), ("version", .str "v3")])
    ⟨.str "git", .str "u1", none⟩
    ⟨.str "git", .str "u3", some (.str "v3")⟩
    [("type", .str "git")]
    rfl rfl rfl rfl).2.2.2.2.2

/-- Observable events of `Build.package_mcu_library` (lines 248-287), in the
order the code performs them.  `runMergeChain` records the exit statuses of the
three `;`-chained commands `ar rc … ; rm … ; ranlib libmicroros.a` of line
266. -/
inductive MergeEvent where
  | removeAuxDir
  | removeArtifactDir
  | extractAndRename
  | runMergeChain (arStatus rmStatus ranlibStatus : Int)
  | exitFailure
  | installArtifact
  | copyIncludes
  | flattenIncludePass
deriving DecidableEq, Repr

/-- Modelled from the spec: `run_cmd` (in `utils.py`, not under `src/`) runs
the command string in a shell and reports the process exit code (§6: "process
exit code 0 = success; nonzero = failure").  A POSIX `;`-chain exits with the
status of its last component, so the status the code observes for
`ar rc … ; rm … ; ranlib …` is the `ranlib` status alone. -/
def mergeChainStatus (arStatus rmStatus ranlibStatus : Int) : Int :=
  ranlibStatus

/-- Embedding of `Build.package_mcu_library` (lines 248-287) as its event
trace: both output directories are removed up front (`shutil.rmtree`, lines
252-253), the per-archive extract/rename walk runs, then the merge command;
a nonzero observed status causes `sys.exit(1)` (line 271) before the rename of
`libmicroros.a` to the final artifact path (line 273). -/
def package_mcu_library (arStatus rmStatus ranlibStatus : Int) :
    List MergeEvent :=
  [.removeAuxDir, .removeArtifactDir, .extractAndRename,
    .runMergeChain arStatus rmStatus ranlibStatus] ++
  (if mergeChainStatus arStatus rmStatus ranlibStatus ≠ 0 then
    [.exitFailure]
  else
    [.installArtifact, .copyIncludes, .flattenIncludePass])

/-- Whether a library file is present at the final artifact path after a trace:
removing the artifact directory deletes it, the final `os.rename` installs
it. -/
def artifactPresent (events : List MergeEvent) (initiallyPresent : Bool) :
    Bool :=
  events.foldl
    (fun present e =>
      match e with
      | .removeArtifactDir => false
      | .installArtifact => true
      | _ => present)
    initiallyPresent

/-- Counterexample for claim C7: the claim says that if the archive-creation
(`ar`) or index-rebuild (`ranlib`) command reports nonzero status the run
terminates with a nonzero exit and no library is left at the final artifact
path.  But line 266 chains the three commands with `;`, so the code only
observes the status of the final `ranlib`: with `ar` failing (status 1) and
`ranlib` succeeding (status 0) there is no failure exit and the (possibly
incomplete) library is installed at the final artifact path. -/
theorem c7_merge_failure_counterexample :
    MergeEvent.exitFailure ∉ package_mcu_library 1 0 0 ∧
      artifactPresent (package_mcu_library 1 0 0) false = true := by
  constructor
  · decide
  · rfl

/-- Claim C7 (amended): the merge step removes the previous final artifact
directory before running the merge command, and whenever the status the code
observes for the `;`-chained merge command — the status of its final
index-rebuild (`ranlib`) step — is nonzero, the run terminates with a nonzero
exit and no library is present at the final artifact path, whatever was there
before. -/
theorem c7_merge_failure_amended (arStatus rmStatus ranlibStatus : Int)
    (prev : Bool) (h : ranlibStatus ≠ 0) :
    (∃ l, package_mcu_library arStatus rmStatus ranlibStatus =
        [MergeEvent.removeAuxDir, MergeEvent.removeArtifactDir] ++ l ∧
        MergeEvent.runMergeChain arStatus rmStatus ranlibStatus ∈ l) ∧
      MergeEvent.exitFailure ∈ package_mcu_library arStatus rmStatus ranlibStatus ∧
      MergeEvent.installArtifact ∉ package_mcu_library arStatus rmStatus ranlibStatus ∧
      artifactPresent (package_mcu_library arStatus rmStatus ranlibStatus) prev
        = false := by
  unfold package_mcu_library mergeChainStatus
  rw [if_pos h]
  refine ⟨⟨[.extractAndRename, .runMergeChain arStatus rmStatus ranlibStatus,
    .exitFailure], rfl, by simp⟩, by simp, by simp, rfl⟩

/-- Witness for C7 (amended): a failing `ranlib` status aborts the run and
leaves no artifact even when one existed before the merge started. -/
theorem c7_merge_failure_amended_witness :
    (1 : Int) ≠ 0 ∧
      MergeEvent.exitFailure ∈ package_mcu_library 0 0 1 ∧
      artifactPresent (package_mcu_library 0 0 1) true = false := by
  refine ⟨by decide, ?_, ?_⟩
  · exact (c7_merge_failure_amended 0 0 1 true (by decide)).2.1
  · exact (c7_merge_failure_amended 0 0 1 true (by decide)).2.2.2

/-- Executable model of Python `str.replace(pat, "")`-style replacement on
character lists: left-to-right, non-overlapping occurrences of `pat` are
replaced by `repl`.  (The code only calls it with a nonempty pattern; for an
empty pattern this model leaves the string unchanged.) -/
def pyReplaceAux (pat repl : List Char) : List Char → List Char
  | [] => []
  | c :: rest =>
    if pat ≠ [] ∧ pat.isPrefixOf (c :: rest) then
      repl ++ pyReplaceAux pat repl (rest.drop (pat.length - 1))
    else
      c :: pyReplaceAux pat repl rest
termination_by l => l.length
decreasing_by
  · simp only [List.length_drop, List.length_cons]
    omega
  · simp only [List.length_cons]
    omega

/-- Python `s.replace(pat, repl)`. -/
def pyReplace (s pat repl : String) : String :=
  String.mk (pyReplaceAux pat.data repl.data s.data)

/-- A process environment (`os.environ`) as an association list. -/
abbrev PyEnv := List (String × String)

/-- `os.getenv(k)`: `None` when the variable is unset (environment keys are
unique, so first-match lookup is exact). -/
def getenv : PyEnv → String → Option String
  | [], _ => none
  | (k0, v0) :: rest, k => if k0 = k then some v0 else getenv rest k

/-- `os.environ[k] = v`. -/
def setenv : PyEnv → String → String → PyEnv
  | [], k, v => [(k, v)]
  | (k0, v0) :: rest, k, v =>
    if k0 = k then (k, v) :: rest else (k0, v0) :: setenv rest k v

/-- `os.environ.pop(k, None)`. -/
def popenv : PyEnv → String → PyEnv
  | [], _ => []
  | (k0, v0) :: rest, k =>
    if k0 = k then popenv rest k else (k0, v0) :: popenv rest k

/-- Python truthiness of an `os.getenv` result: unset (`None`) and the empty
string are both falsy. -/
def envTruthy : Option String → Bool
  | none => false
  | some s => !(s == "")

theorem getenv_setenv_self (e : PyEnv) (k v : String) :
    getenv (setenv e k v) k = some v := by
  induction e with
  | nil => simp [setenv, getenv]
  | cons hd rest ih =>
    obtain ⟨k0, v0⟩ := hd
    by_cases h : k0 = k
    · simp [setenv, getenv, h]
    · simpa [setenv, getenv, h] using ih

theorem getenv_setenv_ne (e : PyEnv) (k v k' : String) (h : k' ≠ k) :
    getenv (setenv e k v) k' = getenv e k' := by
  induction e with
  | nil => simp [setenv, getenv, Ne.symm h]
  | cons hd rest ih =>
    obtain ⟨k0, v0⟩ := hd
    by_cases h0 : k0 = k
    · subst h0
      simp [setenv, getenv, Ne.symm h]
    · by_cases h1 : k0 = k'
      · subst h1
        simp [setenv, getenv, h0, h]
      · simpa [setenv, getenv, h0, h1] using ih

theorem getenv_popenv_self (e : PyEnv) (k : String) :
    getenv (popenv e k) k = none := by
  induction e with
  | nil => rfl
  | cons hd rest ih =>
    obtain ⟨k0, v0⟩ := hd
    by_cases h : k0 = k
    · simpa [popenv, h] using ih
    · simpa [popenv, getenv, h] using ih

theorem getenv_popenv_ne (e : PyEnv) (k k' : String) (h : k' ≠ k) :
    getenv (popenv e k) k' = getenv e k' := by
  induction e with
  | nil => rfl
  | cons hd rest ih =>
    obtain ⟨k0, v0⟩ := hd
    by_cases h0 : k0 = k
    · subst h0
      simpa [popenv, getenv, Ne.symm h] using ih
    · by_cases h1 : k0 = k'
      · subst h1
        simp [popenv, getenv, h0, h]
      · simpa [popenv, getenv, h0, h1] using ih

/-- Embedding of `Build.check_env` (lines 87-115), acting on a model of
`os.environ`.  When `ROS_DISTRO` is truthy, `PATH` is re-assigned to
`PATH.replace('/opt/ros/{ROS_DISTRO}/bin:', '')` (an `AttributeError` is
raised — modelled as `none` — if `PATH` is unset, since `None.replace` fails)
and `AMENT_PREFIX_PATH` is popped; when `RMW_IMPLEMENTATION` is truthy it is
forced to `"rmw_microxrcedds"`.  The result is the mutated `os.environ`
together with the copied `self.env`; the bytecode-cache block (lines 107-115)
sets `PYTHONPYCACHEPREFIX`/`PYTHONDONTWRITEBYTECODE` on the copy and any
failure there (`cacheOk = false`) is swallowed, leaving the copy as it was. -/
def check_env (environ : PyEnv) (cacheOk : Bool) (pycacheDir : String) :
    Option (PyEnv × PyEnv) :=
  let distroStep : Option PyEnv :=
    match getenv environ "ROS_DISTRO" with
    | some d =>
      if d == "" then some environ
      else
        match getenv environ "PATH" with
        | none => none
        | some p =>
          some (popenv
            (setenv environ "PATH" (pyReplace p ("/opt/ros/" ++ d ++ "/bin:") ""))
            "AMENT_PREFIX_PATH")
    | none => some environ
  match distroStep with
  | none => none
  | some env1 =>
    let env2 :=
      if envTruthy (getenv env1 "RMW_IMPLEMENTATION") then
        setenv env1 "RMW_IMPLEMENTATION" "rmw_microxrcedds"
      else env1
    let selfEnv :=
      if cacheOk then
        setenv (setenv env2 "PYTHONPYCACHEPREFIX" pycacheDir)
          "PYTHONDONTWRITEBYTECODE" "1"
      else env2
    some (env2, selfEnv)

/-- Counterexample for claim C9: the claim says `RMW_IMPLEMENTATION` is forced
to `"rmw_microxrcedds"` if and only if the variable is already present.  The
code tests Python truthiness, not presence: with `RMW_IMPLEMENTATION` present
but equal to the empty string, the variable is left empty, not forced. -/
theorem c9_check_env_counterexample :
    getenv [("ROS_DISTRO", "humble"), ("PATH", "/usr/bin"),
        ("RMW_IMPLEMENTATION", "")] "RMW_IMPLEMENTATION" = some "" ∧
      (check_env [("ROS_DISTRO", "humble"), ("PATH", "/usr/bin"),
          ("RMW_IMPLEMENTATION", "")] true "pc").map
          (fun r => getenv r.1 "RMW_IMPLEMENTATION") = some (some "") := by
  exact ⟨rfl, rfl⟩

/-- Claim C9 (amended): when `ROS_DISTRO` is set to a nonempty value and `PATH`
is present, `check_env` completes whether or not the bytecode-cache setup
succeeds, and in the resulting environment: `AMENT_PREFIX_PATH` is cleared,
`PATH` equals the old `PATH` with every left-to-right occurrence of
`/opt/ros/$ROS_DISTRO/bin:` (colon included) deleted, and
`RMW_IMPLEMENTATION` equals the fixed value `"rmw_microxrcedds"` if and only if
it was already present with a nonempty value. -/
theorem c9_check_env_amended (environ : PyEnv) (cacheOk : Bool)
    (pycacheDir d p : String)
    (hd : getenv environ "ROS_DISTRO" = some d) (hne : d ≠ "")
    (hp : getenv environ "PATH" = some p) :
    ∃ env selfEnv,
      check_env environ cacheOk pycacheDir = some (env, selfEnv) ∧
        getenv env "AMENT_PREFIX_PATH" = none ∧
        getenv env "PATH" = some (pyReplace p ("/opt/ros/" ++ d ++ "/bin:") "") ∧
        (getenv env "RMW_IMPLEMENTATION" = some "rmw_microxrcedds" ↔
          envTruthy (getenv environ "RMW_IMPLEMENTATION") = true) := by
  have hne' : (d == "") = false := by
    simpa using hne
  unfold check_env
  rw [hd, hp]
  simp only [hne', Bool.false_eq_true, if_false]
  set env1 : PyEnv := popenv
    (setenv environ "PATH" (pyReplace p ("/opt/ros/" ++ d ++ "/bin:") ""))
    "AMENT_PREFIX_PATH" with henv1
  have hrmw1 : getenv env1 "RMW_IMPLEMENTATION" = getenv environ "RMW_IMPLEMENTATION" := by
    rw [henv1, getenv_popenv_ne _ _ _ (by decide), getenv_setenv_ne _ _ _ _ (by decide)]
  have hpath1 : getenv env1 "PATH" = some (pyReplace p ("/opt/ros/" ++ d ++ "/bin:") "") := by
    rw [henv1, getenv_popenv_ne _ _ _ (by decide), getenv_setenv_self]
  have hament1 : getenv env1 "AMENT_PREFIX_PATH" = none := by
    rw [henv1, getenv_popenv_self]
  by_cases htr : envTruthy (getenv environ "RMW_IMPLEMENTATION") = true
  · have htr1 : envTruthy (getenv env1 "RMW_IMPLEMENTATION") = true := by
      rw [hrmw1]; exact htr
    refine ⟨_, _, by rw [if_pos htr1], ?_, ?_, ?_⟩
    · rw [getenv_setenv_ne _ _ _ _ (by decide), hament1]
    · rw [getenv_setenv_ne _ _ _ _ (by decide), hpath1]
    · rw [getenv_setenv_self]
      simp [htr]
  · have htr1 : ¬ envTruthy (getenv env1 "RMW_IMPLEMENTATION") = true := by
      rw [hrmw1]; exact htr
    refine ⟨_, _, by rw [if_neg htr1], hament1, hpath1, ?_⟩
    constructor
    · intro hfix
      exfalso
      apply htr1
      rw [hfix]
      rfl
    · intro hc
      exact absurd hc htr

/-- Witness for C9 (amended): a concrete environment with a truthy
`ROS_DISTRO`, a `PATH` containing the distro bin segment, and a nonempty
`RMW_IMPLEMENTATION`. -/
theorem c9_check_env_amended_witness :
    getenv [("ROS_DISTRO", "humble"),
        ("PATH", "/opt/ros/humble/bin:/usr/bin"),
        ("AMENT_PREFIX_PATH", "/opt/ros/humble"),
        ("RMW_IMPLEMENTATION", "rmw_fastrtps")] "ROS_DISTRO" = some "humble" ∧
      (∃ env selfEnv,
        check_env [("ROS_DISTRO", "humble"),
            ("PATH", "/opt/ros/humble/bin:/usr/bin"),
            ("AMENT_PREFIX_PATH", "/opt/ros/humble"),
            ("RMW_IMPLEMENTATION", "rmw_fastrtps")] false "pc" =
          some (env, selfEnv) ∧
          getenv env "AMENT_PREFIX_PATH" = none ∧
          getenv env "PATH" =
            some (pyReplace "/opt/ros/humble/bin:/usr/bin"
              "/opt/ros/humble/bin:" "") ∧
          (getenv env "RMW_IMPLEMENTATION" = some "rmw_microxrcedds" ↔
            envTruthy (getenv [("ROS_DISTRO", "humble"),
                ("PATH", "/opt/ros/humble/bin:/usr/bin"),
                ("AMENT_PREFIX_PATH", "/opt/ros/humble"),
                ("RMW_IMPLEMENTATION", "rmw_fastrtps")] "RMW_IMPLEMENTATION")
              = true)) := by
  refine ⟨rfl, ?_⟩
  exact c9_check_env_amended _ false "pc" "humble" "/opt/ros/humble/bin:/usr/bin"
    rfl (by decide) rfl

/-- An input archive found by the `os.walk` of line 256: its filename (the
basename `f`; the walk may find equal basenames in different directories) and
its member object files as (name, content) pairs — contents are abstracted to
identifiers, member names within one real archive are unique. -/
structure ArchiveFile where
  filename : String
  members : List (String × Nat)
deriving DecidableEq, Repr

/-- `f.split('.')[0]` (line 263): everything before the first dot. -/
def stemOf (s : String) : String :=
  String.mk (s.data.takeWhile (fun c => c != '.'))

/-- The spec's words, for comparison: the archive's filename with its (final)
extension removed. -/
def specStem (s : String) : String :=
  if s.data.contains '.' then
    String.mk ((s.data.reverse.drop
      ((s.data.reverse.takeWhile (fun c => c != '.')).length + 1)).reverse)
  else s

/-- The staged name of an extracted member (line 263):
`f.split('.')[0] + "__" + obj`. -/
def renameMember (f m : String) : String :=
  stemOf f ++ "__" ++ m

/-- Names (with contents) present in the shared staging directory, as an
association list whose keys are the unique filenames of the directory.
`os.rename` onto an existing path replaces it, so inserting removes any
earlier entry with the same name. -/
def stageInsert (acc : List (String × Nat)) (n : String) (c : Nat) :
    List (String × Nat) :=
  acc.filter (fun e => e.1 ≠ n) ++ [(n, c)]

/-- The members of one archive that the rename loop of lines 262-263 touches:
`[x for x in os.listdir() if x.endswith('obj')]`. -/
def objMembers (a : ArchiveFile) : List (String × Nat) :=
  a.members.filter (fun m => strEndsWith m.1 "obj")

/-- Processing one archive (lines 258-263): extract, then move every member
whose name ends in `obj` into the staging area under its staged name,
overwriting any file already there. -/
def stageArchive (acc : List (String × Nat)) (a : ArchiveFile) :
    List (String × Nat) :=
  (objMembers a).foldl
    (fun acc2 m => stageInsert acc2 (renameMember a.filename m.1) m.2) acc

/-- The whole staging pass of lines 256-263: every file of the walk whose name
ends in `.a` is processed in order. -/
def stageAll (files : List ArchiveFile) : List (String × Nat) :=
  (files.filter (fun a => strEndsWith a.filename ".a")).foldl stageArchive []

/-- The members of the final merged archive: line 266 archives
`$(ls *.o *.obj)` from the staging area, so only staged names matching one of
the two globs end up in `libmicroros.a`. -/
def mergedArchive (files : List ArchiveFile) : List (String × Nat) :=
  (stageAll files).filter
    (fun e => strEndsWith e.1 ".o" || strEndsWith e.1 ".obj")

/-- The names of an association list. -/
def keysOf (l : List (String × Nat)) : List String :=
  l.map Prod.fst

/-- Folding `stageInsert` over a list of prepared (name, content) pairs. -/
def insertAll (acc ps : List (String × Nat)) : List (String × Nat) :=
  ps.foldl (fun a p => stageInsert a p.1 p.2) acc

/-- The staged (name, content) pairs contributed by one archive. -/
def renamedPairs1 (a : ArchiveFile) : List (String × Nat) :=
  (objMembers a).map (fun m => (renameMember a.filename m.1, m.2))

/-- The staged pairs contributed by a list of archives, in order. -/
def pairsOfFiles : List ArchiveFile → List (String × Nat)
  | [] => []
  | a :: rest => renamedPairs1 a ++ pairsOfFiles rest

/-- All staged names produced by a set of input archives. -/
def renamedNames (files : List ArchiveFile) : List String :=
  keysOf (pairsOfFiles (files.filter (fun a => strEndsWith a.filename ".a")))

theorem keysOf_append (l r : List (String × Nat)) :
    keysOf (l ++ r) = keysOf l ++ keysOf r :=
  List.map_append _ _ _

theorem stageInsert_of_not_mem (acc : List (String × Nat)) (n : String)
    (c : Nat) (h : ¬ n ∈ keysOf acc) : stageInsert acc n c = acc ++ [(n, c)] := by
  unfold stageInsert
  congr 1
  apply List.filter_eq_self.mpr
  intro e he
  have : e.1 ∈ keysOf acc := List.mem_map.mpr ⟨e, he, rfl⟩
  simp only [ne_eq, decide_eq_true_eq]
  intro heq
  exact h (heq ▸ this)

theorem keysOf_stageInsert_nodup (acc : List (String × Nat)) (n : String)
    (c : Nat) (h : (keysOf acc).Nodup) :
    (keysOf (stageInsert acc n c)).Nodup := by
  unfold stageInsert
  rw [keysOf_append]
  rw [List.nodup_append]
  refine ⟨?_, by simp [keysOf], ?_⟩
  · exact List.Nodup.sublist (List.Sublist.map _ (List.filter_sublist _)) h
  · intro x hx hy
    simp only [keysOf, List.mem_map] at hx
    obtain ⟨e, he, rfl⟩ := hx
    have := List.of_mem_filter he
    simp only [ne_eq, decide_eq_true_eq] at this
    simp only [keysOf, List.map_cons, List.map_nil, List.mem_singleton] at hy
    exact this hy

theorem insertAll_append (acc ps qs : List (String × Nat)) :
    insertAll acc (ps ++ qs) = insertAll (insertAll acc ps) qs :=
  List.foldl_append _ _ _ _

theorem insertAll_eq_append (ps : List (String × Nat)) :
    ∀ acc : List (String × Nat), (keysOf acc ++ keysOf ps).Nodup →
      insertAll acc ps = acc ++ ps := by
  induction ps with
  | nil => intro acc _; simp [insertAll]
  | cons p rest ih =>
    intro acc h
    obtain ⟨n, c⟩ := p
    have hkeys : keysOf acc ++ keysOf ((n, c) :: rest) =
        keysOf acc ++ n :: keysOf rest := rfl
    rw [hkeys] at h
    rw [List.nodup_append] at h
    have hn : ¬ n ∈ keysOf acc := by
      intro hmem
      exact (h.2.2 hmem) (List.mem_cons_self n (keysOf rest))
    have hstep : insertAll acc ((n, c) :: rest) =
        insertAll (acc ++ [(n, c)]) rest := by
      unfold insertAll
      rw [List.foldl_cons]
      rw [stageInsert_of_not_mem acc n c hn]
    rw [hstep, ih (acc ++ [(n, c)]) ?_, List.append_assoc]
    · rfl
    · rw [keysOf_append, List.append_assoc]
      rw [List.nodup_append]
      refine ⟨h.1, ?_, ?_⟩
      · have : keysOf [(n, c)] ++ keysOf rest = n :: keysOf rest := rfl
        rw [this]
        exact h.2.1
      · intro x hx hy
        have : keysOf [(n, c)] ++ keysOf rest = n :: keysOf rest := rfl
        rw [this] at hy
        exact h.2.2 hx hy

theorem keysOf_insertAll_nodup (ps : List (String × Nat)) :
    ∀ acc : List (String × Nat), (keysOf acc).Nodup →
      (keysOf (insertAll acc ps)).Nodup := by
  induction ps with
  | nil => intro acc h; exact h
  | cons p rest ih =>
    intro acc h
    have : insertAll acc (p :: rest) = insertAll (stageInsert acc p.1 p.2) rest := by
      unfold insertAll
      rw [List.foldl_cons]
    rw [this]
    exact ih _ (keysOf_stageInsert_nodup acc p.1 p.2 h)

theorem stageArchive_eq (acc : List (String × Nat)) (a : ArchiveFile) :
    stageArchive acc a = insertAll acc (renamedPairs1 a) := by
  unfold stageArchive insertAll renamedPairs1
  rw [List.foldl_map]

theorem foldl_stageArchive_eq (fs : List ArchiveFile) :
    ∀ acc : List (String × Nat),
      fs.foldl stageArchive acc = insertAll acc (pairsOfFiles fs) := by
  induction fs with
  | nil => intro acc; rfl
  | cons a rest ih =>
    intro acc
    rw [List.foldl_cons, ih, stageArchive_eq, pairsOfFiles, insertAll_append]

theorem stageAll_eq (files : List ArchiveFile) :
    stageAll files = insertAll []
      (pairsOfFiles (files.filter (fun a => strEndsWith a.filename ".a"))) :=
  foldl_stageArchive_eq _ []

theorem mem_pairsOfFiles (fs : List ArchiveFile) (a : ArchiveFile)
    (x : String × Nat) (ha : a ∈ fs) (hx : x ∈ renamedPairs1 a) :
    x ∈ pairsOfFiles fs := by
  induction fs with
  | nil => cases ha
  | cons b rest ih =>
    rcases List.mem_cons.mp ha with h | h
    · subst h
      exact List.mem_append.mpr (Or.inl hx)
    · exact List.mem_append.mpr (Or.inr (ih h))

/-- Counterexample for claim C1.  Two input archives found in different
directories share the basename `libx.a`; the first also contains a member
`m.o`.  The claim says the merged archive contains every member of every input
archive under its stem-prefixed name — but (i) the rename loop of line 262
only touches names ending in `obj`, so `m.o` is dropped entirely, and (ii) the
second archive's `libx__m.obj` silently overwrites the first's, losing its
content (the spec's §9 sharp edge).  The merged archive ends up with the
single entry `("libx__m.obj", 2)`. -/
theorem c1_merge_counterexample :
    specStem "libx.a" = "libx" ∧
      ¬ ((specStem "libx.a" ++ "__" ++ "m.o", (0 : Nat)) ∈ mergedArchive
        [ArchiveFile.mk "libx.a" [("m.o", 0), ("m.obj", 1)],
         ArchiveFile.mk "libx.a" [("m.obj", 2)]]) ∧
      ¬ ((specStem "libx.a" ++ "__" ++ "m.obj", (1 : Nat)) ∈ mergedArchive
        [ArchiveFile.mk "libx.a" [("m.o", 0), ("m.obj", 1)],
         ArchiveFile.mk "libx.a" [("m.obj", 2)]]) ∧
      mergedArchive
        [ArchiveFile.mk "libx.a" [("m.o", 0), ("m.obj", 1)],
         ArchiveFile.mk "libx.a" [("m.obj", 2)]] = [("libx__m.obj", 2)] := by
  refine ⟨rfl, ?_, ?_, rfl⟩
  · decide
  · decide

/-- Claim C1 (amended): provided the staged names of the `.a` input archives'
`obj`-suffixed members are pairwise distinct (true when archive basename stems
are unique per archive, as the spec assumes), the merged archive's member
names have no duplicates, and it contains every member whose name ends in
`.obj` of every `.a` input archive, with its content, renamed to
`"<stem>__<original-name>"` where `<stem>` is the archive's filename truncated
at its first dot (which equals extension-removal for single-dot filenames). -/
theorem c1_merge_amended (files : List ArchiveFile)
    (hnd : (renamedNames files).Nodup) :
    (keysOf (mergedArchive files)).Nodup ∧
      ∀ a ∈ files, strEndsWith a.filename ".a" = true →
        ∀ mname mcontent, (mname, mcontent) ∈ a.members →
          strEndsWith mname ".obj" = true →
            (renameMember a.filename mname, mcontent) ∈ mergedArchive files := by
  have hstage : stageAll files =
      pairsOfFiles (files.filter (fun a => strEndsWith a.filename ".a")) := by
    rw [stageAll_eq]
    apply insertAll_eq_append
    simpa [keysOf] using hnd
  constructor
  · have hsub : (mergedArchive files).Sublist (stageAll files) :=
      List.filter_sublist _
    have hnodup : (keysOf (stageAll files)).Nodup := by
      rw [stageAll_eq]
      exact keysOf_insertAll_nodup _ [] (by simp [keysOf])
    exact List.Nodup.sublist (List.Sublist.map _ hsub) hnodup
  · intro a ha hext mname mcontent hm hobj
    have hobj' : strEndsWith mname "obj" = true := strEndsWith_dotobj _ hobj
    have hpair : (renameMember a.filename mname, mcontent) ∈ renamedPairs1 a := by
      unfold renamedPairs1 objMembers
      exact List.mem_map.mpr ⟨(mname, mcontent),
        List.mem_filter.mpr ⟨hm, hobj'⟩, rfl⟩
    have hmem : (renameMember a.filename mname, mcontent) ∈ stageAll files := by
      rw [hstage]
      exact mem_pairsOfFiles _ a _ (List.mem_filter.mpr ⟨ha, hext⟩) hpair
    unfold mergedArchive
    refine List.mem_filter.mpr ⟨hmem, ?_⟩
    have : strEndsWith (renameMember a.filename mname) ".obj" = true := by
      unfold renameMember
      exact strEndsWith_append _ _ _ hobj
    simp [this]

/-- Witness for C1 (amended): two archives with identically-named members but
distinct stems both land, renamed apart, in the merged archive. -/
theorem c1_merge_amended_witness :
    (renamedNames [ArchiveFile.mk "liba.a" [("m.obj", 0)],
        ArchiveFile.mk "libb.a" [("m.obj", 1)]]).Nodup ∧
      ("liba__m.obj", (0 : Nat)) ∈ mergedArchive
        [ArchiveFile.mk "liba.a" [("m.obj", 0)],
         ArchiveFile.mk "libb.a" [("m.obj", 1)]] ∧
      ("libb__m.obj", (1 : Nat)) ∈ mergedArchive
        [ArchiveFile.mk "liba.a" [("m.obj", 0)],
         ArchiveFile.mk "libb.a" [("m.obj", 1)]] := by
  refine ⟨by decide, ?_, ?_⟩
  · have h := c1_merge_amended
      [ArchiveFile.mk "liba.a" [("m.obj", 0)], ArchiveFile.mk "libb.a" [("m.obj", 1)]]
      (by decide)
    exact h.2 (ArchiveFile.mk "liba.a" [("m.obj", 0)]) (by decide) (by decide)
      "m.obj" 0 (by decide) (by decide)
  · have h := c1_merge_amended
      [ArchiveFile.mk "liba.a" [("m.obj", 0)], ArchiveFile.mk "libb.a" [("m.obj", 1)]]
      (by decide)
    exact h.2 (ArchiveFile.mk "libb.a" [("m.obj", 1)]) (by decide) (by decide)
      "m.obj" 1 (by decide) (by decide)

/-- A filesystem tree: a file (content abstracted to an identifier) or a
directory with named children.  Real directories have unique child names; the
operations below use first-match lookup, which agrees with that. -/
inductive FsTree where
  | file (content : Nat)
  | dir (children : List (String × FsTree))

/-- Look up the child of a directory by name. -/
def getChild : List (String × FsTree) → String → Option FsTree
  | [], _ => none
  | (m, t) :: rest, n => if m = n then some t else getChild rest n

/-- Create or replace the child of a directory (`os.rename`/`copyfile` onto a
path, or `makedirs` of a fresh directory). -/
def setChild : List (String × FsTree) → String → FsTree → List (String × FsTree)
  | [], n, v => [(n, v)]
  | (m, t) :: rest, n, v =>
    if m = n then (n, v) :: rest else (m, t) :: setChild rest n v

/-- `shutil.rmtree` of one named child. -/
def removeChildAll : List (String × FsTree) → String → List (String × FsTree)
  | [], _ => []
  | (m, t) :: rest, n =>
    if m = n then removeChildAll rest n else (m, t) :: removeChildAll rest n

theorem getChild_removeChildAll (l : List (String × FsTree)) (n : String) :
    getChild (removeChildAll l n) n = none := by
  induction l with
  | nil => rfl
  | cons hd rest ih =>
    obtain ⟨m, t⟩ := hd
    by_cases h : m = n
    · simpa [removeChildAll, h] using ih
    · simpa [removeChildAll, getChild, h] using ih

/-- Embedding of `shutil.copytree(src, dst, copy_function=shutil.move,
dirs_exist_ok=True)` (line 286) as a merge of the source directory's entries
into the destination directory's entries.  File entries are `shutil.move`d:
onto a missing or file destination path the move is an overwriting rename;
onto a directory the file would land inside it, and `shutil.move` raises if
that inner path already exists.  Directory entries recurse (`makedirs` raising
on an existing file destination); a directory entry with no destination
counterpart is recreated verbatim (copying into a fresh directory reproduces
the source subtree).  Errors are modelled as `none`. -/
def mergeMove (dst : List (String × FsTree)) :
    List (String × FsTree) → Option (List (String × FsTree))
  | [] => some dst
  | (n, FsTree.file c) :: rest =>
    match getChild dst n with
    | some (FsTree.dir ds) =>
      match getChild ds n with
      | some _ => none
      | none =>
        mergeMove (setChild dst n (FsTree.dir (setChild ds n (FsTree.file c)))) rest
    | _ => mergeMove (setChild dst n (FsTree.file c)) rest
  | (n, FsTree.dir cs) :: rest =>
    match getChild dst n with
    | some (FsTree.file _) => none
    | some (FsTree.dir ds) =>
      match mergeMove ds cs with
      | none => none
      | some ds2 => mergeMove (setChild dst n (FsTree.dir ds2)) rest
    | none => mergeMove (dst ++ [(n, FsTree.dir cs)]) rest
termination_by l => sizeOf l
decreasing_by all_goals (simp <;> omega)

/-- One iteration of the include-flattening loop of lines 281-287 on the entry
`folder`: when `folder/folder` exists and is a directory, its contents are
move-merged up into `folder` and `folder/folder` is removed; when it exists as
a file, `shutil.copytree` on a file source raises (`none`); a plain file or a
directory without the self-nested duplicate is left alone. -/
def flattenEntry : String × FsTree → Option (String × FsTree)
  | (name, FsTree.dir ds) =>
    match getChild ds name with
    | some (FsTree.dir inner) =>
      match mergeMove ds inner with
      | none => none
      | some ds2 => some (name, FsTree.dir (removeChildAll ds2 name))
    | some (FsTree.file _) => none
    | none => some (name, FsTree.dir ds)
  | (name, t) => some (name, t)

/-- The include-flattening pass of lines 279-287: `os.listdir` the include
root and process each entry in order (entries are independent: each iteration
touches only the inside of its own entry). -/
def flattenIncludes :
    List (String × FsTree) → Option (List (String × FsTree))
  | [] => some []
  | e :: rest =>
    match flattenEntry e, flattenIncludes rest with
    | some e2, some rest2 => some (e2 :: rest2)
    | _, _ => none

/-- The output of one flattening iteration is a fixed point of the
iteration: the self-nested duplicate is gone. -/
theorem flattenEntry_fixed (x e : String × FsTree)
    (h : flattenEntry x = some e) : flattenEntry e = some e := by
  obtain ⟨n, t⟩ := x
  cases t with
  | file c =>
    simp only [flattenEntry] at h
    cases h
    rfl
  | dir ds =>
    cases h1 : getChild ds n with
    | none =>
      simp only [flattenEntry, h1] at h
      cases h
      simp [flattenEntry, h1]
    | some t0 =>
      cases t0 with
      | file c0 =>
        simp only [flattenEntry, h1] at h
        exact Option.noConfusion h
      | dir inner =>
        cases h2 : mergeMove ds inner with
        | none =>
          simp only [flattenEntry, h1, h2] at h
          exact Option.noConfusion h
        | some ds2 =>
          simp only [flattenEntry, h1, h2] at h
          cases h
          simp [flattenEntry, getChild_removeChildAll]

/-- Claim C2: the include-flatten step is idempotent — whenever the pass
completes on a tree, running it again on the result succeeds and returns the
result unchanged. -/
theorem c2_flatten_idempotent (root root2 : List (String × FsTree))
    (h : flattenIncludes root = some root2) :
    flattenIncludes root2 = some root2 := by
  induction root generalizing root2 with
  | nil =>
    simp only [flattenIncludes] at h
    cases h
    rfl
  | cons e rest ih =>
    cases h1 : flattenEntry e with
    | none =>
      simp only [flattenIncludes, h1] at h
      exact Option.noConfusion h
    | some e2 =>
      cases h2 : flattenIncludes rest with
      | none =>
        simp only [flattenIncludes, h1, h2] at h
        exact Option.noConfusion h
      | some rest2 =>
        simp only [flattenIncludes, h1, h2] at h
        cases h
        have he := flattenEntry_fixed e e2 h1
        have hr := ih rest2 h2
        simp [flattenIncludes, he, hr]

/-- Witness for C2: a concrete include tree with a self-nested duplicate
`p/p` flattens to `p` holding the union, and a second pass returns it
unchanged. -/
theorem c2_flatten_idempotent_witness :
    flattenIncludes
        [("p", FsTree.dir [("p", FsTree.dir [("h", FsTree.file 0)]),
          ("x", FsTree.file 1)])] =
      some [("p", FsTree.dir [("x", FsTree.file 1), ("h", FsTree.file 0)])] ∧
      flattenIncludes
          [("p", FsTree.dir [("x", FsTree.file 1), ("h", FsTree.file 0)])] =
        some [("p", FsTree.dir [("x", FsTree.file 1), ("h", FsTree.file 0)])] := by
  have h : flattenIncludes
      [("p", FsTree.dir [("p", FsTree.dir [("h", FsTree.file 0)]),
        ("x", FsTree.file 1)])] =
      some [("p", FsTree.dir [("x", FsTree.file 1), ("h", FsTree.file 0)])] := by
    simp [flattenIncludes, flattenEntry, mergeMove, getChild, setChild,
      removeChildAll]
  exact ⟨h, c2_flatten_idempotent _ _ h⟩

/-- Child-name uniqueness at every level of a directory listing (true of every
real directory tree). -/
def wfEntries : List (String × FsTree) → Bool
  | [] => true
  | (n, FsTree.file _) :: rest =>
    !(rest.any (fun e => e.1 == n)) && wfEntries rest
  | (n, FsTree.dir cs) :: rest =>
    !(rest.any (fun e => e.1 == n)) && wfEntries cs && wfEntries rest
termination_by l => sizeOf l
decreasing_by all_goals (simp <;> omega)

/-- Embedding of `shutil.copytree(self.packages_folder, self.mcu_src_folder,
ignore=shutil.ignore_patterns('extra_packages.repos'), dirs_exist_ok=True)`
(line 191) as a merge of the overlay folder's entries into the target source
tree.  The ignore callable drops the name `extra_packages.repos` from every
directory listing, at every level.  File entries are `shutil.copy2`ed: onto a
missing or file path they (over)write it; onto a directory path the copy lands
on the like-named entry inside it, raising if that entry is itself a
directory.  Directory entries recurse (`makedirs` raising on an existing file
destination); with no destination counterpart the subtree is recreated, with
the ignore filter still applied.  A raise is modelled as `none`. -/
def overlayMerge (dst : List (String × FsTree)) :
    List (String × FsTree) → Option (List (String × FsTree))
  | [] => some dst
  | (n, t) :: rest =>
    if n = "extra_packages.repos" then overlayMerge dst rest
    else
      match t with
      | FsTree.file c =>
        match getChild dst n with
        | some (FsTree.dir ds) =>
          match getChild ds n with
          | some (FsTree.dir _) => none
          | _ =>
            overlayMerge
              (setChild dst n (FsTree.dir (setChild ds n (FsTree.file c)))) rest
        | _ => overlayMerge (setChild dst n (FsTree.file c)) rest
      | FsTree.dir cs =>
        match getChild dst n with
        | some (FsTree.file _) => none
        | some (FsTree.dir ds) =>
          match overlayMerge ds cs with
          | none => none
          | some ds2 => overlayMerge (setChild dst n (FsTree.dir ds2)) rest
        | none =>
          match overlayMerge [] cs with
          | none => none
          | some c2 => overlayMerge (dst ++ [(n, FsTree.dir c2)]) rest
termination_by l => sizeOf l
decreasing_by all_goals (simp <;> omega)

/-- Resolve a relative path (a nonempty component list) in a directory
listing. -/
def getPath : List (String × FsTree) → List String → Option FsTree
  | _, [] => none
  | l, [n] => getChild l n
  | l, n :: rest =>
    match getChild l n with
    | some (FsTree.dir ds) => getPath ds rest
    | _ => none

/-- Whether an optional tree is a directory. -/
def isDirO : Option FsTree → Bool
  | some (FsTree.dir _) => true
  | _ => false

theorem getChild_setChild_self (l : List (String × FsTree)) (n : String)
    (v : FsTree) : getChild (setChild l n v) n = some v := by
  induction l with
  | nil => simp [setChild, getChild]
  | cons hd rest ih =>
    obtain ⟨m, t⟩ := hd
    by_cases h : m = n
    · simp [setChild, getChild, h]
    · simpa [setChild, getChild, h] using ih

theorem getChild_setChild_ne (l : List (String × FsTree)) (n : String)
    (v : FsTree) (m : String) (h : m ≠ n) :
    getChild (setChild l n v) m = getChild l m := by
  induction l with
  | nil => simp [setChild, getChild, Ne.symm h]
  | cons hd rest ih =>
    obtain ⟨m0, t0⟩ := hd
    by_cases h0 : m0 = n
    · subst h0
      simp [setChild, getChild, Ne.symm h]
    · by_cases h1 : m0 = m
      · subst h1
        simp [setChild, getChild, h0]
      · simpa [setChild, getChild, h0, h1] using ih

theorem getChild_append_single_ne (l : List (String × FsTree)) (n : String)
    (v : FsTree) (m : String) (h : m ≠ n) :
    getChild (l ++ [(n, v)]) m = getChild l m := by
  induction l with
  | nil => simp [getChild, Ne.symm h]
  | cons hd rest ih =>
    obtain ⟨m0, t0⟩ := hd
    by_cases h0 : m0 = m
    · simp [getChild, h0]
    · simpa [getChild, h0] using ih

theorem getChild_append_single_self (l : List (String × FsTree)) (n : String)
    (v : FsTree) (h : getChild l n = none) :
    getChild (l ++ [(n, v)]) n = some v := by
  induction l with
  | nil => simp [getChild]
  | cons hd rest ih =>
    obtain ⟨m0, t0⟩ := hd
    by_cases h0 : m0 = n
    · simp [getChild, h0] at h
    · simp only [getChild, h0] at h
      simpa [getChild, h0] using ih h

/-- `getPath` through a path head depends on the listing only through
`getChild` at that head. -/
theorem getPath_cons_congr (l l' : List (String × FsTree)) (n : String)
    (p : List String) (h : getChild l n = getChild l' n) :
    getPath l (n :: p) = getPath l' (n :: p) := by
  cases p with
  | nil => simpa [getPath] using h
  | cons q qs => simp [getPath, h]

theorem getPath_cons_dir (l : List (String × FsTree)) (n : String)
    (q : String) (qs : List String) (ds : List (String × FsTree))
    (h : getChild l n = some (FsTree.dir ds)) :
    getPath l (n :: q :: qs) = getPath ds (q :: qs) := by
  simp [getPath, h]

theorem getPath_nil_src (p : List String) :
    getPath ([] : List (String × FsTree)) p = none := by
  cases p with
  | nil => rfl
  | cons a l => cases l <;> simp [getPath, getChild]

theorem mem_of_any_eq_false (rest : List (String × FsTree)) (n : String)
    (h : rest.any (fun e => e.1 == n) = false) :
    ∀ e ∈ rest, e.1 ≠ n := by
  intro e he heq
  have : rest.any (fun e => e.1 == n) = true :=
    List.any_eq_true.mpr ⟨e, he, by simp [heq]⟩
  rw [h] at this
  exact Bool.noConfusion this

/-- Frame property of the overlay merge: a child name that no overlay entry
carries (or that is the ignored manifest name) is left exactly as it was in
the target. -/
theorem overlayMerge_frame (src : List (String × FsTree)) :
    ∀ dst res : List (String × FsTree), ∀ n : String,
      overlayMerge dst src = some res →
      (n = "extra_packages.repos" ∨ ∀ e ∈ src, e.1 ≠ n) →
      getChild res n = getChild dst n := by
  induction src with
  | nil =>
    intro dst res n h _
    rw [overlayMerge.eq_def] at h
    injection h with h2
    rw [← h2]
  | cons e rest ih =>
    intro dst res n h hn
    obtain ⟨m, t⟩ := e
    have hn' : n = "extra_packages.repos" ∨ ∀ e ∈ rest, e.1 ≠ n := by
      cases hn with
      | inl h1 => exact Or.inl h1
      | inr hall => exact Or.inr (fun e he => hall e (List.mem_cons_of_mem _ he))
    by_cases hm : m = "extra_packages.repos"
    · rw [overlayMerge.eq_def] at h; simp only [if_pos hm] at h
      exact ih dst res n h hn'
    · have hmn : m ≠ n := by
        cases hn with
        | inl h1 => rw [h1]; exact hm
        | inr hall => exact hall (m, t) (List.mem_cons_self _ _)
      cases t with
      | file c =>
        cases hgd : getChild dst m with
        | none =>
          rw [overlayMerge.eq_def] at h; simp only [if_neg hm, hgd] at h
          rw [ih _ _ _ h hn']
          exact getChild_setChild_ne _ _ _ _ (Ne.symm hmn)
        | some u =>
          cases u with
          | file c0 =>
            rw [overlayMerge.eq_def] at h; simp only [if_neg hm, hgd] at h
            rw [ih _ _ _ h hn']
            exact getChild_setChild_ne _ _ _ _ (Ne.symm hmn)
          | dir ds =>
            cases hgd2 : getChild ds m with
            | none =>
              rw [overlayMerge.eq_def] at h; simp only [if_neg hm, hgd, hgd2] at h
              rw [ih _ _ _ h hn']
              exact getChild_setChild_ne _ _ _ _ (Ne.symm hmn)
            | some u2 =>
              cases u2 with
              | file c2 =>
                rw [overlayMerge.eq_def] at h; simp only [if_neg hm, hgd, hgd2] at h
                rw [ih _ _ _ h hn']
                exact getChild_setChild_ne _ _ _ _ (Ne.symm hmn)
              | dir ds2 =>
                rw [overlayMerge.eq_def] at h; simp only [if_neg hm, hgd, hgd2] at h
                exact Option.noConfusion h
      | dir cs =>
        cases hgd : getChild dst m with
        | none =>
          cases hfresh : overlayMerge ([] : List (String × FsTree)) cs with
          | none =>
            rw [overlayMerge.eq_def] at h; simp only [if_neg hm, hgd, hfresh] at h
            exact Option.noConfusion h
          | some c2 =>
            rw [overlayMerge.eq_def] at h; simp only [if_neg hm, hgd, hfresh] at h
            rw [ih _ _ _ h hn']
            exact getChild_append_single_ne _ _ _ _ (Ne.symm hmn)
        | some u =>
          cases u with
          | file c0 =>
            rw [overlayMerge.eq_def] at h; simp only [if_neg hm, hgd] at h
            exact Option.noConfusion h
          | dir ds =>
            cases hsub : overlayMerge ds cs with
            | none =>
              rw [overlayMerge.eq_def] at h; simp only [if_neg hm, hgd, hsub] at h
              exact Option.noConfusion h
            | some ds2 =>
              rw [overlayMerge.eq_def] at h; simp only [if_neg hm, hgd, hsub] at h
              rw [ih _ _ _ h hn']
              exact getChild_setChild_ne _ _ _ _ (Ne.symm hmn)

theorem bool_and_elim {a b : Bool} (h : (a && b) = true) :
    a = true ∧ b = true := by
  cases a <;> cases b <;> simp_all

theorem wfEntries_cons_file (n : String) (c : Nat)
    (rest : List (String × FsTree)) :
    wfEntries ((n, FsTree.file c) :: rest) =
      (!(rest.any (fun e => e.1 == n)) && wfEntries rest) := by
  rw [wfEntries.eq_def]

theorem wfEntries_cons_dir (n : String) (cs rest : List (String × FsTree)) :
    wfEntries ((n, FsTree.dir cs) :: rest) =
      (!(rest.any (fun e => e.1 == n)) && wfEntries cs && wfEntries rest) := by
  rw [wfEntries.eq_def]

/-- Core of claim C4: a successful overlay merge copies every overlay file
whose path avoids the ignored manifest name onto its relative path, provided
the target does not hold a directory at that path (in which case `copy2`
would land the file inside it instead). -/
theorem overlayMerge_getPath (p : List String) :
    ∀ src dst res : List (String × FsTree),
      wfEntries src = true →
      overlayMerge dst src = some res →
      ∀ c : Nat, getPath src p = some (FsTree.file c) →
        p.all (fun s => !(s == "extra_packages.repos")) = true →
        isDirO (getPath dst p) = false →
        getPath res p = some (FsTree.file c) := by
  induction p with
  | nil =>
    intro src dst res _ _ c hpath _ _
    simp [getPath] at hpath
  | cons n p' ih =>
    intro src
    induction src with
    | nil =>
      intro dst res _ _ c hpath _ _
      rw [getPath_nil_src] at hpath
      exact Option.noConfusion hpath
    | cons e rest ihs =>
      intro dst res hwf h c hpath hman hdir
      obtain ⟨m, t⟩ := e
      have hnman : ¬ (n = "extra_packages.repos") := by
        have := List.all_eq_true.mp hman n (List.mem_cons_self _ _)
        simpa using this
      have hman' : p'.all (fun s => !(s == "extra_packages.repos")) = true := by
        rw [List.all_cons] at hman
        exact (bool_and_elim hman).2
      by_cases hm : m = "extra_packages.repos"
      · -- the head entry is an ignored manifest; it is not on our path
        rw [overlayMerge.eq_def] at h; simp only [if_pos hm] at h
        have hmn : m ≠ n := fun hc => hnman (by rw [← hc]; exact hm)
        have hcg : getChild ((m, t) :: rest) n = getChild rest n := by
          simp [getChild, hmn]
        rw [getPath_cons_congr ((m, t) :: rest) rest n p' hcg] at hpath
        have hwf' : wfEntries rest = true := by
          cases t with
          | file c0 =>
            rw [wfEntries_cons_file] at hwf
            exact (bool_and_elim hwf).2
          | dir cs =>
            rw [wfEntries_cons_dir] at hwf
            exact (bool_and_elim hwf).2
        exact ihs dst res hwf' h c hpath hman hdir
      · by_cases hmn : m = n
        · subst hmn
          -- the head entry is the one our path enters
          cases t with
          | file c0 =>
            rw [wfEntries_cons_file] at hwf
            have hrest := (bool_and_elim hwf).2
            have hany : rest.any (fun e => e.1 == m) = false := by
              have := (bool_and_elim hwf).1
              simpa using this
            cases p' with
            | nil =>
              have hc0 : c0 = c := by
                simp [getPath, getChild] at hpath
                exact hpath
              subst hc0
              cases hgd : getChild dst m with
              | some u =>
                cases u with
                | dir ds =>
                  exfalso
                  have : isDirO (getPath dst [m]) = true := by
                    show isDirO (getChild dst m) = true
                    rw [hgd]
                    rfl
                  rw [hdir] at this
                  exact Bool.noConfusion this
                | file cd =>
                  rw [overlayMerge.eq_def] at h; simp only [if_neg hm, hgd] at h
                  have hres : getChild res m = some (FsTree.file c0) := by
                    rw [overlayMerge_frame rest _ _ m h
                      (Or.inr (mem_of_any_eq_false rest m hany))]
                    exact getChild_setChild_self dst m _
                  show getChild res m = some (FsTree.file c0)
                  exact hres
              | none =>
                rw [overlayMerge.eq_def] at h; simp only [if_neg hm, hgd] at h
                have hres : getChild res m = some (FsTree.file c0) := by
                  rw [overlayMerge_frame rest _ _ m h
                    (Or.inr (mem_of_any_eq_false rest m hany))]
                  exact getChild_setChild_self dst m _
                show getChild res m = some (FsTree.file c0)
                exact hres
            | cons q qs =>
              exfalso
              simp [getPath, getChild] at hpath
          | dir cs =>
            rw [wfEntries_cons_dir] at hwf
            have hrest := (bool_and_elim hwf).2
            have hwfcs : wfEntries cs = true :=
              (bool_and_elim (bool_and_elim hwf).1).2
            have hany : rest.any (fun e => e.1 == m) = false := by
              have := (bool_and_elim (bool_and_elim hwf).1).1
              simpa using this
            cases p' with
            | nil =>
              exfalso
              simp [getPath, getChild] at hpath
            | cons q qs =>
              have hsrc : getChild ((m, FsTree.dir cs) :: rest) m =
                  some (FsTree.dir cs) := by simp [getChild]
              rw [getPath_cons_dir _ _ _ _ _ hsrc] at hpath
              cases hgd : getChild dst m with
              | some u =>
                cases u with
                | file c0 =>
                  rw [overlayMerge.eq_def] at h; simp only [if_neg hm, hgd] at h
                  exact Option.noConfusion h
                | dir ds =>
                  cases hsub : overlayMerge ds cs with
                  | none =>
                    rw [overlayMerge.eq_def] at h
                    simp only [if_neg hm, hgd, hsub] at h
                    exact Option.noConfusion h
                  | some ds2 =>
                    rw [overlayMerge.eq_def] at h
                    simp only [if_neg hm, hgd, hsub] at h
                    have hdir' : isDirO (getPath ds (q :: qs)) = false := by
                      rw [getPath_cons_dir dst m q qs ds hgd] at hdir
                      exact hdir
                    have hds2 := ih cs ds ds2 hwfcs hsub c hpath hman' hdir'
                    have hres : getChild res m = some (FsTree.dir ds2) := by
                      rw [overlayMerge_frame rest _ _ m h
                        (Or.inr (mem_of_any_eq_false rest m hany))]
                      exact getChild_setChild_self dst m _
                    rw [getPath_cons_dir res m q qs ds2 hres]
                    exact hds2
              | none =>
                cases hfresh : overlayMerge ([] : List (String × FsTree)) cs with
                | none =>
                  rw [overlayMerge.eq_def] at h
                  simp only [if_neg hm, hgd, hfresh] at h
                  exact Option.noConfusion h
                | some c2 =>
                  rw [overlayMerge.eq_def] at h
                  simp only [if_neg hm, hgd, hfresh] at h
                  have hdir' : isDirO
                      (getPath ([] : List (String × FsTree)) (q :: qs)) = false := by
                    rw [getPath_nil_src]
                    rfl
                  have hc2 := ih cs [] c2 hwfcs hfresh c hpath hman' hdir'
                  have hres : getChild res m = some (FsTree.dir c2) := by
                    rw [overlayMerge_frame rest _ _ m h
                      (Or.inr (mem_of_any_eq_false rest m hany))]
                    exact getChild_append_single_self dst m _ hgd
                  rw [getPath_cons_dir res m q qs c2 hres]
                  exact hc2
        · -- the head entry is off our path
          have hcg : getChild ((m, t) :: rest) n = getChild rest n := by
            simp [getChild, hmn]
          rw [getPath_cons_congr ((m, t) :: rest) rest n p' hcg] at hpath
          cases t with
          | file c0 =>
            have hwf' : wfEntries rest = true := by
              rw [wfEntries_cons_file] at hwf
              exact (bool_and_elim hwf).2
            cases hgd : getChild dst m with
            | none =>
              rw [overlayMerge.eq_def] at h; simp only [if_neg hm, hgd] at h
              have hdir' : isDirO (getPath (setChild dst m (FsTree.file c0))
                  (n :: p')) = false := by
                rw [getPath_cons_congr _ dst n p'
                  (getChild_setChild_ne dst m _ n (Ne.symm hmn))]
                exact hdir
              exact ihs _ res hwf' h c hpath hman hdir'
            | some u =>
              cases u with
              | file cd =>
                rw [overlayMerge.eq_def] at h; simp only [if_neg hm, hgd] at h
                have hdir' : isDirO (getPath (setChild dst m (FsTree.file c0))
                    (n :: p')) = false := by
                  rw [getPath_cons_congr _ dst n p'
                    (getChild_setChild_ne dst m _ n (Ne.symm hmn))]
                  exact hdir
                exact ihs _ res hwf' h c hpath hman hdir'
              | dir ds =>
                cases hgd2 : getChild ds m with
                | none =>
                  rw [overlayMerge.eq_def] at h
                  simp only [if_neg hm, hgd, hgd2] at h
                  have hdir' : isDirO (getPath
                      (setChild dst m (FsTree.dir (setChild ds m (FsTree.file c0))))
                      (n :: p')) = false := by
                    rw [getPath_cons_congr _ dst n p'
                      (getChild_setChild_ne dst m _ n (Ne.symm hmn))]
                    exact hdir
                  exact ihs _ res hwf' h c hpath hman hdir'
                | some u2 =>
                  cases u2 with
                  | file c2 =>
                    rw [overlayMerge.eq_def] at h
                    simp only [if_neg hm, hgd, hgd2] at h
                    have hdir' : isDirO (getPath
                        (setChild dst m (FsTree.dir (setChild ds m (FsTree.file c0))))
                        (n :: p')) = false := by
                      rw [getPath_cons_congr _ dst n p'
                        (getChild_setChild_ne dst m _ n (Ne.symm hmn))]
                      exact hdir
                    exact ihs _ res hwf' h c hpath hman hdir'
                  | dir ds2 =>
                    rw [overlayMerge.eq_def] at h
                    simp only [if_neg hm, hgd, hgd2] at h
                    exact Option.noConfusion h
          | dir cs =>
            have hwf' : wfEntries rest = true := by
              rw [wfEntries_cons_dir] at hwf
              exact (bool_and_elim hwf).2
            cases hgd : getChild dst m with
            | some u =>
              cases u with
              | file c0 =>
                rw [overlayMerge.eq_def] at h; simp only [if_neg hm, hgd] at h
                exact Option.noConfusion h
              | dir ds =>
                cases hsub : overlayMerge ds cs with
                | none =>
                  rw [overlayMerge.eq_def] at h
                  simp only [if_neg hm, hgd, hsub] at h
                  exact Option.noConfusion h
                | some ds2 =>
                  rw [overlayMerge.eq_def] at h
                  simp only [if_neg hm, hgd, hsub] at h
                  have hdir' : isDirO (getPath (setChild dst m (FsTree.dir ds2))
                      (n :: p')) = false := by
                    rw [getPath_cons_congr _ dst n p'
                      (getChild_setChild_ne dst m _ n (Ne.symm hmn))]
                    exact hdir
                  exact ihs _ res hwf' h c hpath hman hdir'
            | none =>
              cases hfresh : overlayMerge ([] : List (String × FsTree)) cs with
              | none =>
                rw [overlayMerge.eq_def] at h
                simp only [if_neg hm, hgd, hfresh] at h
                exact Option.noConfusion h
              | some c2 =>
                rw [overlayMerge.eq_def] at h
                simp only [if_neg hm, hgd, hfresh] at h
                have hdir' : isDirO (getPath (dst ++ [(m, FsTree.dir c2)])
                    (n :: p')) = false := by
                  rw [getPath_cons_congr _ dst n p'
                    (getChild_append_single_ne dst m _ n (Ne.symm hmn))]
                  exact hdir
                exact ihs _ res hwf' h c hpath hman hdir'

/-- Counterexample for claim C4: the claim says every file in the
extra-packages folder overwrites any existing file at the same relative path.
But `ignore_patterns('extra_packages.repos')` filters that name from every
directory listing, at every depth — so an overlay file
`sub/extra_packages.repos` is silently not copied, and the target's existing
file at that relative path keeps its old content instead of matching the
overlay's. -/
theorem c4_overlay_counterexample :
    overlayMerge
        [("sub", FsTree.dir [("extra_packages.repos", FsTree.file 0)])]
        [("sub", FsTree.dir [("extra_packages.repos", FsTree.file 1)])] =
      some [("sub", FsTree.dir [("extra_packages.repos", FsTree.file 0)])] ∧
      getPath [("sub", FsTree.dir [("extra_packages.repos", FsTree.file 1)])]
        ["sub", "extra_packages.repos"] = some (FsTree.file 1) ∧
      ¬ (getPath [("sub", FsTree.dir [("extra_packages.repos", FsTree.file 0)])]
        ["sub", "extra_packages.repos"] = some (FsTree.file 1)) := by
  refine ⟨?_, by simp [getPath, getChild], by simp [getPath, getChild]⟩
  simp [overlayMerge, getChild, setChild]

/-- Claim C4 (amended): after a successful overlay merge, every file of the
overlay folder whose path components avoid the manifest name
`extra_packages.repos` overwrites the target at its relative path — the
resulting tree holds exactly the overlay's file there — provided the target
does not hold a directory at that path (`copy2` onto a directory lands inside
it); and the target's top-level `extra_packages.repos` entry is never touched:
the overlay's own manifest file is never copied into the target source
tree. -/
theorem c4_overlay_amended (dst src res : List (String × FsTree))
    (hwf : wfEntries src = true)
    (h : overlayMerge dst src = some res) :
    getChild res "extra_packages.repos" = getChild dst "extra_packages.repos" ∧
      ∀ (p : List String) (c : Nat),
        getPath src p = some (FsTree.file c) →
        p.all (fun s => !(s == "extra_packages.repos")) = true →
        isDirO (getPath dst p) = false →
        getPath res p = some (FsTree.file c) := by
  constructor
  · exact overlayMerge_frame src dst res "extra_packages.repos" h (Or.inl rfl)
  · intro p c hpath hman hdir
    exact overlayMerge_getPath p src dst res hwf h c hpath hman hdir

/-- Witness for C4 (amended): an overlay with `foo.txt` and its manifest file
overwrites the target's old `foo.txt` and leaves no manifest in the target. -/
theorem c4_overlay_amended_witness :
    wfEntries [("foo.txt", FsTree.file 1),
        ("extra_packages.repos", FsTree.file 9)] = true ∧
      overlayMerge [("foo.txt", FsTree.file 0)]
          [("foo.txt", FsTree.file 1), ("extra_packages.repos", FsTree.file 9)] =
        some [("foo.txt", FsTree.file 1)] ∧
      getPath [("foo.txt", FsTree.file 1)] ["foo.txt"] = some (FsTree.file 1) ∧
      getChild [("foo.txt", FsTree.file 1)] "extra_packages.repos" =
        getChild [("foo.txt", FsTree.file 0)] "extra_packages.repos" := by
  have hwf : wfEntries [("foo.txt", FsTree.file 1),
      ("extra_packages.repos", FsTree.file 9)] = true := by
    simp [wfEntries]
  have hmerge : overlayMerge [("foo.txt", FsTree.file 0)]
      [("foo.txt", FsTree.file 1), ("extra_packages.repos", FsTree.file 9)] =
      some [("foo.txt", FsTree.file 1)] := by
    simp [overlayMerge, getChild, setChild]
  have happ := c4_overlay_amended [("foo.txt", FsTree.file 0)]
    [("foo.txt", FsTree.file 1), ("extra_packages.repos", FsTree.file 9)]
    [("foo.txt", FsTree.file 1)] hwf hmerge
  refine ⟨hwf, hmerge, ?_, happ.1⟩
  exact happ.2 ["foo.txt"] 1 (by simp [getPath, getChild]) (by simp)
    (by simp [getPath, getChild, isDirO])

end LibraryBuilder
